import Mathlib

set_option maxHeartbeats 1000000

namespace Firmware

/-! Shallow embedding of the logging subsystem implemented in
src/wiring/src/spark_wiring_logging.cpp: the LogFilter category prefix tree,
the LogManager handler lifecycle, the dispatch predicate logEnabled and the
parts of the JSON request handler the claims talk about. -/

/-- Modelled from the spec: the numeric values of the LogLevel enumeration are
declared in a header that is not among the sources at hand; the spec fixes
only the order TRACE < INFO < WARN < ERROR < PANIC with ALL the most
permissive value and NONE the least permissive one, and requires numeric
comparison to respect this order. -/
def LOG_LEVEL_ALL : Nat := 0

/-- Modelled from the spec: see LOG_LEVEL_ALL. -/
def LOG_LEVEL_TRACE : Nat := 1

/-- Modelled from the spec: see LOG_LEVEL_ALL. -/
def LOG_LEVEL_INFO : Nat := 2

/-- Modelled from the spec: see LOG_LEVEL_ALL. -/
def LOG_LEVEL_WARN : Nat := 3

/-- Modelled from the spec: see LOG_LEVEL_ALL. -/
def LOG_LEVEL_ERROR : Nat := 4

/-- Modelled from the spec: see LOG_LEVEL_ALL. -/
def LOG_LEVEL_PANIC : Nat := 5

/-- Modelled from the spec: see LOG_LEVEL_ALL. -/
def LOG_LEVEL_NONE : Nat := 6

/-- One step of the subcategory iterator nextSubcategoryName: the returned
name is the maximal dot-free segment at the head of the category string; an
empty segment ends the iteration (the nullptr return), and the remaining
string starts right after the separating dot when one is present. -/
def nextSubcategoryName (category : List Char) : Option (List Char × List Char) :=
  let seg := category.takeWhile (fun c => !(c == '.'))
  if seg.isEmpty then Option.none
  else some (seg, (category.dropWhile (fun c => !(c == '.'))).tail)

/-- Category splitting: the subcategory names produced by repeated calls of
nextSubcategoryName.  Recursion is by fuel; category.length steps always
suffice because the remaining string shrinks at every step. -/
def splitSegsAux : Nat → List Char → List (List Char)
  | 0, _ => []
  | fuel + 1, cat =>
    match nextSubcategoryName cat with
    | Option.none => []
    | some (seg, rest) => seg :: splitSegsAux fuel rest

/-- The subcategory names of a category string. -/
def splitSegs (cat : List Char) : List (List Char) := splitSegsAux cat.length cat

/-- Category splitting annotated with the last-subcategory check made by
LogFilter's constructor: the flag is true exactly when the whole category
string has been consumed after the segment, which is when the constructor
records the filter's level. -/
def annSegsAux : Nat → List Char → List (List Char × Bool)
  | 0, _ => []
  | fuel + 1, cat =>
    match nextSubcategoryName cat with
    | Option.none => []
    | some (seg, rest) => (seg, rest.isEmpty) :: annSegsAux fuel rest

/-- The annotated subcategory names of a category string. -/
def annSegs (cat : List Char) : List (List Char × Bool) := annSegsAux cat.length cat

/-- One node of LogFilter's prefix tree (LogFilter::Node): subcategory name,
optional explicit logging level (the int16 field, -1 that is `none` when no
level is specified for this node) and the sorted array of children. -/
inductive Node : Type where
  | mk : List Char → Option Nat → List Node → Node

/-- The subcategory name of a node. -/
def Node.name : Node → List Char
  | .mk n _ _ => n

/-- The explicit level of a node, when present. -/
def Node.level : Node → Option Nat
  | .mk _ l _ => l

/-- The children of a node. -/
def Node.nodes : Node → List Node
  | .mk _ _ c => c

/-- Placeholder node used for the always-in-bounds array accesses. -/
def nodeDflt : Node := .mk [] Option.none []

/-- The comparison underlying LogFilter::nodeIndex's comparator: strncmp on
the raw bytes up to the shorter length, then shorter-first on an equal common
part; eq is an exact match (same length and content). -/
def cmpSeg : List Char → List Char → Ordering
  | [], [] => Ordering.eq
  | [], _ :: _ => Ordering.lt
  | _ :: _, [] => Ordering.gt
  | a :: as, b :: bs =>
    if a < b then Ordering.lt
    else if b < a then Ordering.gt
    else cmpSeg as bs

/-- LogFilter::nodeIndex: std::lower_bound over the sorted sibling array with
a comparator that sets found on an exact match.  first and len delimit the
half-open search window; recursion is by fuel, and len steps suffice because
len strictly decreases. -/
def nodeIndexAux (ns : List Node) (seg : List Char) : Nat → Nat → Nat → Bool → Nat × Bool
  | 0, first, _, found => (first, found)
  | fuel + 1, first, len, found =>
    if len = 0 then (first, found)
    else
      let half := len / 2
      let mid := first + half
      match cmpSeg (ns.getD mid nodeDflt).name seg with
      | Ordering.lt => nodeIndexAux ns seg fuel (mid + 1) (len - half - 1) found
      | Ordering.eq => nodeIndexAux ns seg fuel first half true
      | Ordering.gt => nodeIndexAux ns seg fuel first half found

/-- The index and found flag returned by LogFilter::nodeIndex. -/
def nodeIndex (ns : List Node) (seg : List Char) : Nat × Bool :=
  nodeIndexAux ns seg ns.length 0 ns.length false

/-- The descent loop of LogFilter::level over the subcategory names of the
queried category: stop at the first name without a matching node; a node that
carries an explicit level replaces the accumulated level. -/
def resolveSegs : List Node → List (List Char) → Nat → Nat
  | _, [], acc => acc
  | nodes, seg :: rest, acc =>
    let r := nodeIndex nodes seg
    if r.2 then
      let node := nodes.getD r.1 nodeDflt
      resolveSegs node.nodes rest
        (match node.level with
          | some l => l
          | Option.none => acc)
    else acc

/-- Ordered insertion into a sibling array at the position returned by
nodeIndex (Array::insert in the source; the position never exceeds the
array's size). -/
def insertAt : Nat → Node → List Node → List Node
  | 0, x, l => x :: l
  | _ + 1, x, [] => [x]
  | n + 1, x, a :: l => a :: insertAt n x l

/-- The level update the constructor performs on the node at the found or
freshly inserted position: when the whole category string has been consumed
after this segment, the filter's level is recorded on the node. -/
def updateNode (flvl : Nat) (isLast : Bool) (node : Node) : Node :=
  if isLast then Node.mk node.name (some flvl) node.nodes else node

/-- The per-filter loop of LogFilter's constructor over the annotated
subcategory names of one category string: search the sibling array; when the
name is absent insert a fresh node at the returned position, consuming one
allocation answer from oks (a false answer models the constructor's early
return on allocation failure; an exhausted list means allocation succeeds);
record the filter's level on the node when the whole category string has been
consumed; then descend into that node's children. -/
def addCatSegs (flvl : Nat) :
    List Node → List (List Char × Bool) → List Bool → Option (List Node × List Bool)
  | nodes, [], oks => some (nodes, oks)
  | nodes, (seg, isLast) :: rest, oks =>
    let r := nodeIndex nodes seg
    let step :=
      if r.2 then some (nodes, oks)
      else
        match oks with
        | [] => some (insertAt r.1 (Node.mk seg Option.none []) nodes, ([] : List Bool))
        | ok :: oks' =>
          if ok then some (insertAt r.1 (Node.mk seg Option.none []) nodes, oks')
          else Option.none
    match step with
    | Option.none => Option.none
    | some (nodes1, oks1) =>
      let node1 := updateNode flvl isLast (nodes1.getD r.1 nodeDflt)
      match addCatSegs flvl node1.nodes rest oks1 with
      | Option.none => Option.none
      | some (children, oks2) => some (nodes1.set r.1 (Node.mk node1.name node1.level children), oks2)

/-- The filter-processing loop of LogFilter's constructor over the whole list
of (category string, level) filters, threading the allocation oracle. -/
def buildNodes : List (List Char × Nat) → List Node → List Bool → Option (List Node)
  | [], nodes, _ => some nodes
  | (cat, flvl) :: filters, nodes, oks =>
    match addCatSegs flvl nodes (annSegs cat) oks with
    | Option.none => Option.none
    | some (nodes1, oks1) => buildNodes filters nodes1 oks1

/-- spark::detail::LogFilter: the default level plus the root nodes. -/
structure LogFilter where
  level : Nat
  nodes : List Node

/-- LogFilter's filtering constructor: level_ starts at LOG_LEVEL_NONE as the
fallback used on construction errors; reserveOk models the cats.reserve call
and oks answers the node allocations; only a fully built forest is swapped in
together with the configured default level. -/
def LogFilter.build (lvl : Nat) (filters : List (List Char × Nat))
    (reserveOk : Bool) (oks : List Bool) : LogFilter :=
  if reserveOk then
    match buildNodes filters [] oks with
    | Option.none => ⟨LOG_LEVEL_NONE, []⟩
    | some ns => ⟨lvl, ns⟩
  else ⟨LOG_LEVEL_NONE, []⟩

/-- LogFilter::level(category): the default level when the tree has no nodes,
otherwise the descent over the category's subcategory names. -/
def LogFilter.resolve (f : LogFilter) (category : List Char) : Nat :=
  if f.nodes.isEmpty then f.level
  else resolveSegs f.nodes (splitSegs category) f.level

/-- The explicit level carried by the node reached from nodes along the given
subcategory path, when that node exists; looked up with the same nodeIndex
search as resolution uses. -/
def levelAtPath : List Node → List (List Char) → Option Nat
  | _, [] => Option.none
  | nodes, seg :: rest =>
    let r := nodeIndex nodes seg
    if r.2 then
      let node := nodes.getD r.1 nodeDflt
      match rest with
      | [] => node.level
      | _ :: _ => levelAtPath node.nodes rest
    else Option.none

/-- Strictly ascending sibling order: adjacent and hence all pairs compare lt
under cmpSeg, so a sibling array is sorted and duplicate-free. -/
abbrev SortedNodes (ns : List Node) : Prop :=
  List.Pairwise (fun a b => cmpSeg a.name b.name = Ordering.lt) ns

/-- The whole-forest sorting invariant: every sibling array in the tree,
starting with the root array, is strictly sorted. -/
inductive ForestOrd : List Node → Prop where
  | mk : ∀ ns, SortedNodes ns → (∀ n, n ∈ ns → ForestOrd n.nodes) → ForestOrd ns

/-- One factory-handler record (LogManager::FactoryHandler): the id, the
handler instance and the optional stream instance; numbers stand in for the
C++ object pointers. -/
structure FactoryHandler where
  id : List Char
  handler : Nat
  stream : Option Nat
deriving DecidableEq

/-- The LogManager state the handler API touches: the active-handler array
(dispatch order), the factory-handler records and whether the system log
callbacks are currently set. -/
structure LMState where
  activeHandlers : List Nat
  factoryHandlers : List FactoryHandler
  callbacks : Bool
deriving DecidableEq

/-- LogManager::destroyFactoryHandler(id): the first record whose id matches
is removed, its handler is removed from the active array (first occurrence)
and handler and stream are destroyed through the factories (an effect on
objects outside this state). -/
def destroyFactoryHandler (s : LMState) (id : List Char) : LMState :=
  match s.factoryHandlers.find? (fun h => h.id == id) with
  | Option.none => s
  | some h =>
    { s with
      activeHandlers := s.activeHandlers.erase h.handler,
      factoryHandlers := s.factoryHandlers.eraseP (fun r => r.id == id) }

/-- LogManager::removeFactoryHandler(id): destroyFactoryHandler under lock. -/
def removeFactoryHandler (s : LMState) (id : List Char) : LMState :=
  destroyFactoryHandler s id

/-- The environment of one addFactoryHandler call: what the stream factory's
createStream returns (none models a null result), what ends up in the handler
scope guard (none when the handler factory returns null or no handler type
was given), and whether the record and active-handler appends succeed. -/
structure AddEnv where
  streamResult : Option Nat
  handlerResult : Option Nat
  recordAppendOk : Bool
  activeAppendOk : Bool

/-- LogManager::addFactoryHandler: destroy any record with the same id first,
reject an empty id, create the optional stream and then the handler (on these
failures the call returns with the already-destroyed old record not
restored), append the record, append the active handler (takeLast reverts the
record append when this fails), and only then release the scope guards.  The
stream scope guard holds createStream's result only when a stream type was
given, so the guard is empty, and the call fails, exactly when
hasStreamType && env.streamResult.isNone. -/
def addFactoryHandler (s : LMState) (id : List Char) (hasStreamType : Bool)
    (env : AddEnv) : LMState × Bool :=
  if id.isEmpty then (destroyFactoryHandler s id, false)
  else if hasStreamType && env.streamResult.isNone then (destroyFactoryHandler s id, false)
  else
    match env.handlerResult with
    | Option.none => (destroyFactoryHandler s id, false)
    | some hdl =>
      if env.recordAppendOk then
        if env.activeAppendOk then
          ({ destroyFactoryHandler s id with
             activeHandlers := (destroyFactoryHandler s id).activeHandlers ++ [hdl],
             factoryHandlers := (destroyFactoryHandler s id).factoryHandlers ++
               [⟨id, hdl, if hasStreamType then env.streamResult else Option.none⟩] }, true)
        else (destroyFactoryHandler s id, false)
      else (destroyFactoryHandler s id, false)

/-- LogManager::addHandler: fail on an already-registered handler or a failed
append; on the transition from zero to one active handler the system log
callbacks are set. -/
def addHandler (s : LMState) (handler : Nat) (appendOk : Bool) : LMState × Bool :=
  if s.activeHandlers.contains handler || !appendOk then (s, false)
  else
    let s1 := { s with activeHandlers := s.activeHandlers ++ [handler] }
    if s1.activeHandlers.length = 1 then ({ s1 with callbacks := true }, true)
    else (s1, true)

/-- LogManager::removeHandler: remove the handler if present; on the
transition from one to zero active handlers the system log callbacks are
reset. -/
def removeHandler (s : LMState) (handler : Nat) : LMState :=
  if s.activeHandlers.contains handler then
    let s1 := { s with activeHandlers := s.activeHandlers.erase handler }
    if s1.activeHandlers.isEmpty then { s1 with callbacks := false } else s1
  else s

/-- Modelled from the spec: the LogHandler class is declared in a header that
is not among the sources at hand; per the spec each handler resolves the
queried category through its own category filter tree, so a handler is
represented here by its LogFilter and its level method by resolution. -/
def handlerLevel (h : LogFilter) (category : List Char) : Nat :=
  h.resolve category

/-- LogManager::logEnabled: fold over the active handlers keeping the minimum
resolved level, starting from LOG_LEVEL_NONE, then test level >= minLevel. -/
def logEnabled (handlers : List LogFilter) (level : Nat) (category : List Char) : Bool :=
  let minLevel := handlers.foldl
    (fun m h => if handlerLevel h category < m then handlerLevel h category else m)
    LOG_LEVEL_NONE
  decide (minLevel ≤ level)

/-- A JSON value, as far as the request handler consumes one. -/
inductive JSONValue : Type where
  | invalid : JSONValue
  | str : List Char → JSONValue
  | num : Int → JSONValue
  | obj : List (List Char × JSONValue) → JSONValue

/-- JSONObjectIterator: iterating a non-object value visits no members. -/
def objFields : JSONValue → List (List Char × JSONValue)
  | .obj fs => fs
  | _ => []

/-- JSONValue::toString: a non-string value yields an empty string. -/
def jsonToString : JSONValue → List Char
  | .str s => s
  | _ => []

/-- JSONValue::toInt: a non-number value yields 0. -/
def jsonToInt : JSONValue → Int
  | .num n => n
  | _ => 0

/-- The hnd and strm sub-object of a request (JSONRequestHandler::Object):
a type string plus free-form extra parameters, the latter defaulting to an
invalid JSONValue. -/
structure ReqObject where
  type : List Char
  params : JSONValue

/-- A ReqObject before any member has been parsed into it. -/
def reqObjectDflt : ReqObject := ⟨[], JSONValue.invalid⟩

/-- JSONRequestHandler::parseObject: iterate the members, keeping the value
of the member named type as the object type and the value of the member named
params as the extra parameters (note: the source keys on the name params,
while the usage comment at the top of the same file documents the wire field
as param). -/
def parseObject (v : JSONValue) (o0 : ReqObject) : ReqObject :=
  (objFields v).foldl
    (fun o f =>
      if f.1 = "type".toList then { o with type := jsonToString f.2 }
      else if f.1 = "params".toList then { o with params := f.2 }
      else o)
    o0

/-- DefaultOutputStreamFactory::getParams followed by the Serial1 branch of
createStream: the baud rate starts at 9600 and a member named baud overrides
it. -/
def serial1Baud (params : JSONValue) : Int :=
  (objFields params).foldl
    (fun b f => if f.1 = "baud".toList then jsonToInt f.2 else b) 9600

/-- The filter list of the concrete resolution scenario. -/
def c3Filters : List (List Char × Nat) :=
  [("a".toList, LOG_LEVEL_ERROR), ("a.b.c".toList, LOG_LEVEL_TRACE),
   ("a.b.x".toList, LOG_LEVEL_TRACE), ("aa".toList, LOG_LEVEL_ERROR),
   ("aa.b".toList, LOG_LEVEL_WARN)]

/-- The tree built from c3Filters with default level NONE and no allocation
failures. -/
def c3Tree : LogFilter := LogFilter.build LOG_LEVEL_NONE c3Filters true []

/-- The tree built from the single filter a..b, whose category string has an
empty middle segment. -/
def c10Tree : LogFilter :=
  LogFilter.build LOG_LEVEL_NONE [("a..b".toList, LOG_LEVEL_ERROR)] true []

/-- The tree built from the filter a, the truncation of a..b before its empty
segment. -/
def c10TreeTrunc : LogFilter :=
  LogFilter.build LOG_LEVEL_NONE [("a".toList, LOG_LEVEL_ERROR)] true []

/-- A tree with explicit levels both at a and at its child a.b. -/
def c4Tree : LogFilter :=
  LogFilter.build LOG_LEVEL_NONE
    [("a".toList, LOG_LEVEL_ERROR), ("a.b".toList, LOG_LEVEL_WARN)] true []

/-- A manager state holding one factory record h1 whose handler 7 is active. -/
def c1PreState : LMState := ⟨[7], [⟨"h1".toList, 7, Option.none⟩], true⟩

/-- A call environment in which stream creation fails and everything else
succeeds. -/
def c1FailEnv : AddEnv := ⟨Option.none, some 9, true, true⟩

/-- A manager state with one unrelated active handler and factory record. -/
def c8PreState : LMState := ⟨[3], [⟨"h0".toList, 3, some 2⟩], true⟩

/-- A call environment in which stream and handler creation and both appends
succeed. -/
def c8Env : AddEnv := ⟨some 5, some 9, true, true⟩

/-- A two-node sorted sibling array used to instantiate the search lemma. -/
def c7Nodes : List Node :=
  [Node.mk "a".toList Option.none [], Node.mk "b".toList (some 1) []]

/-- The strm request object whose extra parameters are keyed param, the field
name that both the source's own usage comment and the spec document. -/
def c6StrmParam : JSONValue :=
  JSONValue.obj [("type".toList, JSONValue.str "Serial1".toList),
                 ("param".toList, JSONValue.obj [("baud".toList, JSONValue.num 19200)])]

/-- The same request object keyed params, the name the code actually
matches. -/
def c6StrmParams : JSONValue :=
  JSONValue.obj [("type".toList, JSONValue.str "Serial1".toList),
                 ("params".toList, JSONValue.obj [("baud".toList, JSONValue.num 19200)])]

/-! Helper lemmas about lists, shared by several claims. -/

theorem find?_append_of_none {α : Type} (p : α → Bool) (l1 l2 : List α)
    (h : ∀ x, x ∈ l1 → p x = false) : (l1 ++ l2).find? p = l2.find? p := by
  induction l1 with
  | nil => rfl
  | cons a l ih =>
    rw [List.cons_append, List.find?_cons_of_neg _ (by simp [h a (by simp)])]
    exact ih fun x hx => h x (by simp [hx])

theorem erase_append_singleton (a : Nat) (l : List Nat) (h : a ∉ l) :
    (l ++ [a]).erase a = l := by
  induction l with
  | nil => simp
  | cons b l ih =>
    have hba : ¬(b == a) = true := by
      simp only [beq_iff_eq]
      intro hba
      exact h (by simp [hba])
    rw [List.cons_append, List.erase_cons_tail hba, ih fun hm => h (by simp [hm])]

theorem eraseP_append_singleton {α : Type} (p : α → Bool) (l : List α) (x : α)
    (h : ∀ r, r ∈ l → p r = false) (hx : p x = true) : (l ++ [x]).eraseP p = l := by
  induction l with
  | nil => simp [List.eraseP_cons, hx]
  | cons a l ih =>
    rw [List.cons_append, List.eraseP_cons, h a (by simp), cond_false,
      ih fun r hr => h r (by simp [hr])]

theorem getD_mem {α : Type} : ∀ (l : List α) (j : Nat) (d : α), j < l.length →
    l.getD j d ∈ l := by
  intro l
  induction l with
  | nil => intro j d hj; simp at hj
  | cons a l ih =>
    intro j d hj
    cases j with
    | zero => simp [List.getD]
    | succ j =>
      have := ih j d (by simpa using hj)
      simpa [List.getD] using Or.inr this

/-! LogManager helper lemmas. -/

theorem destroy_of_no_match (s : LMState) (id : List Char)
    (h : ∀ r, r ∈ s.factoryHandlers → ¬(r.id = id)) : destroyFactoryHandler s id = s := by
  unfold destroyFactoryHandler
  have hf : s.factoryHandlers.find? (fun r => r.id == id) = Option.none := by
    rw [List.find?_eq_none]
    intro x hx
    simpa using h x hx
  rw [hf]

theorem destroy_callbacks (s : LMState) (id : List Char) :
    (destroyFactoryHandler s id).callbacks = s.callbacks := by
  unfold destroyFactoryHandler
  cases hf : s.factoryHandlers.find? (fun r => r.id == id) <;> rfl

/-- Claim C1, amended: every failing addFactoryHandler call leaves the state
equal to the pre-call state with any pre-existing record with the same id
destroyed and removed; in particular, when no record with that id existed
before the call, the active-handler set and the factory-record list are
exactly their pre-call values.  (The claim's stronger statement, that the
pre-call state is restored even when a record with the id existed, is refuted
by claim_C1_counterexample.) -/
theorem claim_C1 : ∀ (s : LMState) (id : List Char) (hst : Bool) (env : AddEnv),
    ((addFactoryHandler s id hst env).2 = false →
      (addFactoryHandler s id hst env).1 = destroyFactoryHandler s id)
    ∧ ((∀ r, r ∈ s.factoryHandlers → ¬(r.id = id)) → destroyFactoryHandler s id = s) := by
  intro s id hst env
  refine ⟨?_, destroy_of_no_match s id⟩
  intro hf
  obtain ⟨sr, hres, rok, aok⟩ := env
  unfold addFactoryHandler at hf ⊢
  cases hres with
  | none => split_ifs at hf ⊢ <;> rfl
  | some hdl => split_ifs at hf ⊢ <;> simp_all

/-- Claim C1 witness: a concrete failing call (stream creation fails) on a
state with no record under the requested id leaves the state unchanged. -/
theorem claim_C1_witness :
    (addFactoryHandler ⟨[], [], false⟩ ("h1".toList) true c1FailEnv).2 = false ∧
      (addFactoryHandler ⟨[], [], false⟩ ("h1".toList) true c1FailEnv).1 = ⟨[], [], false⟩ := by
  have h := claim_C1 ⟨[], [], false⟩ ("h1".toList) true c1FailEnv
  exact ⟨by decide, (h.1 (by decide)).trans (h.2 (by intro r hr; cases hr))⟩

/-- Claim C1 counterexample: on a state that already holds a record with the
requested id, a failing call does not restore the pre-call state — the old
record was destroyed up front and is gone afterwards. -/
theorem claim_C1_counterexample :
    (addFactoryHandler c1PreState ("h1".toList) true c1FailEnv).2 = false ∧
      ¬((addFactoryHandler c1PreState ("h1".toList) true c1FailEnv).1 = c1PreState) := by
  decide

/-- The minimum fold of LogManager::logEnabled compared against a level:
the accumulated minimum is at most lvl iff the start value already is, or
some handler in the list resolves the category at or below lvl. -/
theorem foldl_min_le_iff (cat : List Char) : ∀ (l : List LogFilter) (init lvl : Nat),
    (l.foldl (fun m h => if handlerLevel h cat < m then handlerLevel h cat else m) init ≤ lvl)
    ↔ (init ≤ lvl ∨ ∃ h, h ∈ l ∧ handlerLevel h cat ≤ lvl) := by
  intro l
  induction l with
  | nil => intro init lvl; simp
  | cons x l ih =>
    intro init lvl
    rw [List.foldl_cons, ih]
    constructor
    · rintro (h1 | ⟨h, hm, hl⟩)
      · by_cases hx : handlerLevel x cat < init
        · simp only [if_pos hx] at h1
          exact Or.inr ⟨x, by simp, h1⟩
        · simp only [if_neg hx] at h1
          exact Or.inl h1
      · exact Or.inr ⟨h, by simp [hm], hl⟩
    · rintro (h1 | ⟨h, hm, hl⟩)
      · left
        by_cases hx : handlerLevel x cat < init
        · simp only [if_pos hx]; omega
        · simp only [if_neg hx]; exact h1
      · rcases List.mem_cons.mp hm with rfl | hm'
        · left
          by_cases hx : handlerLevel h cat < init
          · simp only [if_pos hx]; exact hl
          · simp only [if_neg hx]; omega
        · exact Or.inr ⟨h, hm', hl⟩

/-- Claim C2, amended: queryEnabled(level, category) returns true iff some
active handler resolves the category to a threshold at most level, or level
is at or above LOG_LEVEL_NONE (the minimum aggregation starts from NONE, so
such a level always passes); consequently with zero active handlers it
returns false exactly for the levels strictly below NONE.  (The claim's
statement that zero active handlers give false for every level is refuted by
claim_C2_counterexample.) -/
theorem claim_C2 : ∀ (handlers : List LogFilter) (lvl : Nat) (cat : List Char),
    logEnabled handlers lvl cat = true ↔
      ((∃ h, h ∈ handlers ∧ handlerLevel h cat ≤ lvl) ∨ LOG_LEVEL_NONE ≤ lvl) := by
  intro hs lvl cat
  simp only [logEnabled, decide_eq_true_eq]
  rw [foldl_min_le_iff]
  exact or_comm

/-- Claim C2 counterexample: with zero active handlers the query at level
LOG_LEVEL_NONE returns true, because level >= minLevel starts from minLevel =
LOG_LEVEL_NONE; the claim demands false for every level. -/
theorem claim_C2_counterexample : logEnabled [] LOG_LEVEL_NONE [] = true := by
  decide

/-- Claim C3: the concrete scenario — filters a:ERROR, a.b.c:TRACE,
a.b.x:TRACE, aa:ERROR, aa.b:WARN with default NONE resolve exactly as the
spec lists: a and a.b to ERROR, a.b.c and a.b.c.d to TRACE, aa.b to WARN and
z to NONE. -/
theorem claim_C3 :
    c3Tree.resolve "a".toList = LOG_LEVEL_ERROR ∧
    c3Tree.resolve "a.b".toList = LOG_LEVEL_ERROR ∧
    c3Tree.resolve "a.b.c".toList = LOG_LEVEL_TRACE ∧
    c3Tree.resolve "a.b.c.d".toList = LOG_LEVEL_TRACE ∧
    c3Tree.resolve "aa.b".toList = LOG_LEVEL_WARN ∧
    c3Tree.resolve "z".toList = LOG_LEVEL_NONE := by
  decide

/-- Claim C5, amended: when tree construction hits an allocation failure at
any point (the initial reserve or any node insertion), the resulting tree has
no nodes and resolution returns LOG_LEVEL_NONE — the hard-coded fallback
level of the constructor — for every category; the configured default level
is not used.  (The claim's statement that the configured default is returned
is refuted by claim_C5_counterexample.) -/
theorem claim_C5 : ∀ (lvl : Nat) (filters : List (List Char × Nat)) (oks : List Bool),
    (buildNodes filters [] oks = Option.none →
      LogFilter.build lvl filters true oks = ⟨LOG_LEVEL_NONE, []⟩ ∧
      ∀ c, (LogFilter.build lvl filters true oks).resolve c = LOG_LEVEL_NONE)
    ∧ (LogFilter.build lvl filters false oks = ⟨LOG_LEVEL_NONE, []⟩ ∧
      ∀ c, (LogFilter.build lvl filters false oks).resolve c = LOG_LEVEL_NONE) := by
  intro lvl filters oks
  constructor
  · intro hb
    have h1 : LogFilter.build lvl filters true oks = ⟨LOG_LEVEL_NONE, []⟩ := by
      unfold LogFilter.build
      rw [if_pos rfl, hb]
    exact ⟨h1, fun c => by rw [h1]; rfl⟩
  · have h1 : LogFilter.build lvl filters false oks = ⟨LOG_LEVEL_NONE, []⟩ := by
      unfold LogFilter.build
      rfl
    exact ⟨h1, fun c => by rw [h1]; rfl⟩

/-- Claim C5 witness: a concrete failing construction (the allocation of the
first node fails) yields the fallback tree, whose resolution of x is
LOG_LEVEL_NONE. -/
theorem claim_C5_witness :
    buildNodes [("a".toList, LOG_LEVEL_ERROR)] [] [false] = Option.none ∧
      (LogFilter.build LOG_LEVEL_WARN [("a".toList, LOG_LEVEL_ERROR)] true [false]).resolve
        "x".toList = LOG_LEVEL_NONE := by
  exact ⟨rfl, ((claim_C5 LOG_LEVEL_WARN [("a".toList, LOG_LEVEL_ERROR)] [false]).1 rfl).2 _⟩

/-- Claim C5 counterexample: with configured default WARN and a failing
allocation, resolution returns LOG_LEVEL_NONE, not the configured default
WARN the claim promises. -/
theorem claim_C5_counterexample :
    ¬((LogFilter.build LOG_LEVEL_WARN [("a".toList, LOG_LEVEL_ERROR)] true [false]).resolve
        "x".toList = LOG_LEVEL_WARN) := by
  decide

/-- Claim C6, evaluated at the failing input: a strm object carrying its
extra parameters under the documented field name param is parsed with those
parameters dropped (parseObject matches only the name params), so a Serial1
stream request with param baud 19200 is configured with the default
9600 baud; the same object keyed params yields 19200, locating the
divergence between the code and its own wire-format documentation. -/
theorem claim_C6 :
    serial1Baud (parseObject c6StrmParam reqObjectDflt).params = 9600 ∧
    objFields (parseObject c6StrmParam reqObjectDflt).params = [] ∧
    (parseObject c6StrmParam reqObjectDflt).type = "Serial1".toList ∧
    serial1Baud (parseObject c6StrmParams reqObjectDflt).params = 19200 := by
  exact ⟨rfl, rfl, rfl, rfl⟩

/-- Claim C8: adding a factory handler under a previously-unused id, in an
environment where creation and registration succeed and the created handler
is fresh, and then removing that id, restores the manager state exactly. -/
theorem claim_C8 : ∀ (s : LMState) (id : List Char) (hst : Bool) (env : AddEnv) (hdl : Nat),
    env.handlerResult = some hdl →
    env.recordAppendOk = true →
    env.activeAppendOk = true →
    (hst = true → env.streamResult.isNone = false) →
    id.isEmpty = false →
    (∀ r, r ∈ s.factoryHandlers → ¬(r.id = id)) →
    hdl ∉ s.activeHandlers →
    (addFactoryHandler s id hst env).2 = true ∧
      removeFactoryHandler (addFactoryHandler s id hst env).1 id = s := by
  intro s id hst env hdl hres hrok haok hsr hid hnor hact
  obtain ⟨sr, res, rok, aok⟩ := env
  simp only at hres hrok haok hsr
  subst hres hrok haok
  have hdes : destroyFactoryHandler s id = s := destroy_of_no_match s id hnor
  have hcond : (hst && sr.isNone) = false := by
    cases hst with
    | false => rfl
    | true => simp [hsr rfl]
  unfold addFactoryHandler
  rw [hid, hcond]
  simp only [Bool.false_eq_true, if_false, if_true, hdes]
  refine ⟨by trivial, ?_⟩
  unfold removeFactoryHandler destroyFactoryHandler
  obtain ⟨act, recs, cb⟩ := s
  simp only at hnor hact hdes ⊢
  have hfind :
      ((recs ++ [⟨id, hdl, if hst then sr else Option.none⟩] :
        List FactoryHandler).find? fun r => r.id == id) =
        some ⟨id, hdl, if hst then sr else Option.none⟩ := by
    rw [find?_append_of_none _ recs _ (by
      intro x hx
      simpa using hnor x hx)]
    simp [List.find?]
  rw [hfind]
  have hera : (act ++ [hdl]).erase hdl = act := erase_append_singleton hdl act hact
  have herp :
      ((recs ++ [⟨id, hdl, if hst then sr else Option.none⟩] :
        List FactoryHandler).eraseP fun r => r.id == id) = recs := by
    apply eraseP_append_singleton
    · intro r hr
      simpa using hnor r hr
    · simp
  simp only [hera, herp]

/-- Claim C8 witness: the concrete round trip on a state with one unrelated
record — add h1 (stream 5, handler 9) then remove h1 — returns exactly the
original state. -/
theorem claim_C8_witness :
    (addFactoryHandler c8PreState ("h1".toList) true c8Env).2 = true ∧
      removeFactoryHandler (addFactoryHandler c8PreState ("h1".toList) true c8Env).1
        ("h1".toList) = c8PreState := by
  exact claim_C8 c8PreState ("h1".toList) true c8Env 9 rfl rfl rfl (fun _ => rfl) rfl
    (by decide) (by decide)

/-- Claim C9: addFactoryHandler and removeFactoryHandler never change the
callback registration state, whatever the outcome; addHandler that grows the
active set from zero to one sets the callbacks, and removeHandler that
shrinks it from one to zero resets them. -/
theorem claim_C9 :
    (∀ (s : LMState) (id : List Char) (hst : Bool) (env : AddEnv),
      (addFactoryHandler s id hst env).1.callbacks = s.callbacks)
    ∧ (∀ (s : LMState) (id : List Char),
      (removeFactoryHandler s id).callbacks = s.callbacks)
    ∧ (∀ (s : LMState) (hdl : Nat) (ok : Bool), s.activeHandlers = [] →
      (addHandler s hdl ok).2 = true → (addHandler s hdl ok).1.callbacks = true)
    ∧ (∀ (s : LMState) (hdl : Nat), s.activeHandlers = [hdl] →
      (removeHandler s hdl).callbacks = false) := by
  refine ⟨?_, ?_, ?_, ?_⟩
  · intro s id hst env
    obtain ⟨sr, res, rok, aok⟩ := env
    unfold addFactoryHandler
    cases res with
    | none => split_ifs <;> simp [destroy_callbacks]
    | some hdl => split_ifs <;> simp [destroy_callbacks]
  · intro s id
    exact destroy_callbacks s id
  · intro s hdl ok hempty hsucc
    unfold addHandler at hsucc ⊢
    rw [hempty] at hsucc ⊢
    cases ok with
    | false => simp at hsucc
    | true => simp
  · intro s hdl hone
    unfold removeHandler
    rw [hone]
    simp

/-- Claim C9 witness: the four parts at concrete states — a failing factory
add on a registered-callbacks state keeps them registered, a factory removal
on an unregistered state keeps them unregistered, a first addHandler sets
them, and a last removeHandler resets them. -/
theorem claim_C9_witness :
    (addFactoryHandler ⟨[1], [], true⟩ ("x".toList) true c1FailEnv).1.callbacks = true ∧
    (removeFactoryHandler ⟨[], [], false⟩ ("x".toList)).callbacks = false ∧
    (addHandler ⟨[], [], false⟩ 5 true).1.callbacks = true ∧
    (removeHandler ⟨[5], [], true⟩ 5).callbacks = false := by
  refine ⟨?_, ?_, ?_, ?_⟩
  · exact claim_C9.1 ⟨[1], [], true⟩ ("x".toList) true c1FailEnv
  · exact claim_C9.2.1 ⟨[], [], false⟩ ("x".toList)
  · exact claim_C9.2.2.1 ⟨[], [], false⟩ 5 true rfl (by decide)
  · exact claim_C9.2.2.2 ⟨[5], [], true⟩ 5 rfl

/-! Category-splitting lemmas. -/

theorem next_nil : nextSubcategoryName [] = Option.none := rfl

theorem next_dot (s : List Char) : nextSubcategoryName ('.' :: s) = Option.none := rfl

theorem next_some {cat seg rest : List Char}
    (h : nextSubcategoryName cat = some (seg, rest)) :
    seg = cat.takeWhile (fun c => !(c == '.')) ∧
      rest = (cat.dropWhile (fun c => !(c == '.'))).tail ∧
      seg.isEmpty = false := by
  unfold nextSubcategoryName at h
  by_cases he : (cat.takeWhile fun c => !(c == '.')).isEmpty
  · simp [he] at h
  · simp only [he, Bool.false_eq_true, if_false, Option.some.injEq, Prod.mk.injEq] at h
    refine ⟨h.1.symm, h.2.symm, ?_⟩
    rw [← h.1]
    exact Bool.eq_false_iff.mpr he

theorem takeWhile_dropWhile_length {α : Type} (p : α → Bool) :
    ∀ (l : List α), (l.takeWhile p).length + (l.dropWhile p).length = l.length := by
  intro l
  induction l with
  | nil => rfl
  | cons a l ih =>
    cases hpa : p a with
    | false =>
      rw [List.takeWhile_cons_of_neg (by simp [hpa]), List.dropWhile_cons_of_neg (by simp [hpa])]
      simp
    | true =>
      rw [List.takeWhile_cons_of_pos hpa, List.dropWhile_cons_of_pos hpa]
      simp only [List.length_cons]
      omega

theorem next_rest_length {cat seg rest : List Char}
    (h : nextSubcategoryName cat = some (seg, rest)) : rest.length < cat.length := by
  obtain ⟨hseg, hrest, hne⟩ := next_some h
  have hsplit := takeWhile_dropWhile_length (fun c => !(c == '.')) cat
  have hlen : rest.length = (cat.dropWhile fun c => !(c == '.')).length - 1 := by
    rw [hrest, List.length_tail]
  have hpos : 0 < (cat.takeWhile fun c => !(c == '.')).length := by
    rw [← hseg]
    cases seg with
    | nil => simp at hne
    | cons a l => simp
  omega

theorem splitSegsAux_congr : ∀ (f1 f2 : Nat) (cat : List Char),
    cat.length ≤ f1 → cat.length ≤ f2 → splitSegsAux f1 cat = splitSegsAux f2 cat := by
  intro f1
  induction f1 with
  | zero =>
    intro f2 cat h1 h2
    have hc : cat = [] := by
      cases cat with
      | nil => rfl
      | cons a l => simp at h1
    subst hc
    cases f2 <;> simp [splitSegsAux, next_nil]
  | succ f1 ih =>
    intro f2 cat h1 h2
    cases f2 with
    | zero =>
      have hc : cat = [] := by
        cases cat with
        | nil => rfl
        | cons a l => simp at h2
      subst hc
      simp [splitSegsAux, next_nil]
    | succ f2 =>
      simp only [splitSegsAux]
      cases hn : nextSubcategoryName cat with
      | none => rfl
      | some pr =>
        obtain ⟨seg, rest⟩ := pr
        have hr := next_rest_length hn
        dsimp only
        rw [ih f2 rest (by omega) (by omega)]

theorem splitSegs_eq (cat : List Char) :
    splitSegs cat = match nextSubcategoryName cat with
      | Option.none => []
      | some (seg, rest) => seg :: splitSegs rest := by
  unfold splitSegs
  cases cat with
  | nil => simp [splitSegsAux, next_nil]
  | cons a l =>
    simp only [List.length_cons, splitSegsAux]
    cases hn : nextSubcategoryName (a :: l) with
    | none => rfl
    | some pr =>
      obtain ⟨seg, rest⟩ := pr
      have hr := next_rest_length hn
      have hr2 : rest.length ≤ l.length := by
        simp only [List.length_cons] at hr
        omega
      dsimp only
      rw [splitSegsAux_congr l.length rest.length rest hr2 le_rfl]

theorem annSegsAux_congr : ∀ (f1 f2 : Nat) (cat : List Char),
    cat.length ≤ f1 → cat.length ≤ f2 → annSegsAux f1 cat = annSegsAux f2 cat := by
  intro f1
  induction f1 with
  | zero =>
    intro f2 cat h1 h2
    have hc : cat = [] := by
      cases cat with
      | nil => rfl
      | cons a l => simp at h1
    subst hc
    cases f2 <;> simp [annSegsAux, next_nil]
  | succ f1 ih =>
    intro f2 cat h1 h2
    cases f2 with
    | zero =>
      have hc : cat = [] := by
        cases cat with
        | nil => rfl
        | cons a l => simp at h2
      subst hc
      simp [annSegsAux, next_nil]
    | succ f2 =>
      simp only [annSegsAux]
      cases hn : nextSubcategoryName cat with
      | none => rfl
      | some pr =>
        obtain ⟨seg, rest⟩ := pr
        have hr := next_rest_length hn
        dsimp only
        rw [ih f2 rest (by omega) (by omega)]

theorem annSegs_eq (cat : List Char) :
    annSegs cat = match nextSubcategoryName cat with
      | Option.none => []
      | some (seg, rest) => (seg, rest.isEmpty) :: annSegs rest := by
  unfold annSegs
  cases cat with
  | nil => simp [annSegsAux, next_nil]
  | cons a l =>
    simp only [List.length_cons, annSegsAux]
    cases hn : nextSubcategoryName (a :: l) with
    | none => rfl
    | some pr =>
      obtain ⟨seg, rest⟩ := pr
      have hr := next_rest_length hn
      have hr2 : rest.length ≤ l.length := by
        simp only [List.length_cons] at hr
        omega
      dsimp only
      rw [annSegsAux_congr l.length rest.length rest hr2 le_rfl]

theorem takeWhile_append_all {α : Type} (p : α → Bool) :
    ∀ (xs l : List α), (∀ c, c ∈ xs → p c = true) →
      (xs ++ l).takeWhile p = xs ++ l.takeWhile p := by
  intro xs l
  induction xs with
  | nil => intro h; rfl
  | cons a xs ih =>
    intro h
    rw [List.cons_append, List.takeWhile_cons_of_pos (h a (by simp)),
      ih fun c hc => h c (by simp [hc]), List.cons_append]

theorem dropWhile_append_all {α : Type} (p : α → Bool) :
    ∀ (xs l : List α), (∀ c, c ∈ xs → p c = true) →
      (xs ++ l).dropWhile p = l.dropWhile p := by
  intro xs l
  induction xs with
  | nil => intro h; rfl
  | cons a xs ih =>
    intro h
    rw [List.cons_append, List.dropWhile_cons_of_pos (h a (by simp))]
    exact ih fun c hc => h c (by simp [hc])

theorem takeWhile_append_stop {α : Type} (p : α → Bool) :
    ∀ (xs l : List α) (c : α), c ∈ xs → p c = false →
      (xs ++ l).takeWhile p = xs.takeWhile p := by
  intro xs l
  induction xs with
  | nil => intro c hc; cases hc
  | cons a xs ih =>
    intro c hc hpc
    cases hpa : p a with
    | false =>
      rw [List.cons_append, List.takeWhile_cons_of_neg (by simp [hpa]),
        List.takeWhile_cons_of_neg (by simp [hpa])]
    | true =>
      have hcx : c ∈ xs := by
        rcases List.mem_cons.mp hc with rfl | h
        · rw [hpa] at hpc; cases hpc
        · exact h
      rw [List.cons_append, List.takeWhile_cons_of_pos hpa,
        List.takeWhile_cons_of_pos hpa, ih c hcx hpc]

theorem dropWhile_append_stop {α : Type} (p : α → Bool) :
    ∀ (xs l : List α) (c : α), c ∈ xs → p c = false →
      (xs ++ l).dropWhile p = xs.dropWhile p ++ l := by
  intro xs l
  induction xs with
  | nil => intro c hc; cases hc
  | cons a xs ih =>
    intro c hc hpc
    cases hpa : p a with
    | false =>
      rw [List.cons_append, List.dropWhile_cons_of_neg (by simp [hpa]),
        List.dropWhile_cons_of_neg (by simp [hpa]), List.cons_append]
    | true =>
      have hcx : c ∈ xs := by
        rcases List.mem_cons.mp hc with rfl | h
        · rw [hpa] at hpc; cases hpc
        · exact h
      rw [List.cons_append, List.dropWhile_cons_of_pos hpa,
        List.dropWhile_cons_of_pos hpa, ih c hcx hpc]

theorem takeWhile_all {α : Type} (p : α → Bool) :
    ∀ (xs : List α), (∀ c, c ∈ xs → p c = true) → xs.takeWhile p = xs := by
  intro xs
  induction xs with
  | nil => intro h; rfl
  | cons a xs ih =>
    intro h
    rw [List.takeWhile_cons_of_pos (h a (by simp)), ih fun c hc => h c (by simp [hc])]

theorem dropWhile_all {α : Type} (p : α → Bool) :
    ∀ (xs : List α), (∀ c, c ∈ xs → p c = true) → xs.dropWhile p = [] := by
  intro xs
  induction xs with
  | nil => intro h; rfl
  | cons a xs ih =>
    intro h
    rw [List.dropWhile_cons_of_pos (h a (by simp))]
    exact ih fun c hc => h c (by simp [hc])

theorem dropWhile_ne_nil_of_stop {α : Type} (p : α → Bool) :
    ∀ (xs : List α) (c : α), c ∈ xs → p c = false → xs.dropWhile p ≠ [] := by
  intro xs
  induction xs with
  | nil => intro c hc; cases hc
  | cons a xs ih =>
    intro c hc hpc
    cases hpa : p a with
    | false =>
      rw [List.dropWhile_cons_of_neg (by simp [hpa])]
      simp
    | true =>
      have hcx : c ∈ xs := by
        rcases List.mem_cons.mp hc with rfl | h
        · rw [hpa] at hpc; cases hpc
        · exact h
      rw [List.dropWhile_cons_of_pos hpa]
      exact ih c hcx hpc

theorem next_append_dot (c2 sfx : List Char) :
    nextSubcategoryName (c2 ++ '.' :: sfx) =
      (match nextSubcategoryName c2 with
        | Option.none => Option.none
        | some (seg, rest) =>
          some (seg, if ('.') ∈ c2 then rest ++ '.' :: sfx else sfx)) := by
  by_cases hd : ('.') ∈ c2
  · have hpd : (!(('.' : Char) == '.')) = false := by simp
    have ht := takeWhile_append_stop (fun c => !(c == '.')) c2 ('.' :: sfx) '.' hd hpd
    have hdr := dropWhile_append_stop (fun c => !(c == '.')) c2 ('.' :: sfx) '.' hd hpd
    have hdn := dropWhile_ne_nil_of_stop (fun c => !(c == '.')) c2 '.' hd hpd
    unfold nextSubcategoryName
    rw [ht, hdr]
    by_cases he : (c2.takeWhile fun c => !(c == '.')).isEmpty
    · simp [he]
    · obtain ⟨d, ds, hds⟩ : ∃ d ds, (c2.dropWhile fun c => !(c == '.')) = d :: ds := by
        cases hds : (c2.dropWhile fun c => !(c == '.')) with
        | nil => exact absurd hds hdn
        | cons d ds => exact ⟨d, ds, rfl⟩
      rw [hds]
      simp [he, hd]
  · have hall : ∀ c, c ∈ c2 → (!(c == '.')) = true := by
      intro c hc
      simp only [Bool.not_eq_true', beq_eq_false_iff_ne]
      intro h
      exact hd (h ▸ hc)
    have ht := takeWhile_append_all (fun c => !(c == '.')) c2 ('.' :: sfx) hall
    have hdr := dropWhile_append_all (fun c => !(c == '.')) c2 ('.' :: sfx) hall
    have ht2 := takeWhile_all (fun c => !(c == '.')) c2 hall
    have hd2 := dropWhile_all (fun c => !(c == '.')) c2 hall
    unfold nextSubcategoryName
    rw [ht, hdr, ht2, hd2]
    have hdot : (('.' :: sfx).takeWhile fun c => !(c == '.')) = [] := rfl
    have hdot2 : (('.' :: sfx).dropWhile fun c => !(c == '.')) = '.' :: sfx := rfl
    rw [hdot, hdot2, List.append_nil]
    cases c2 with
    | nil => rfl
    | cons a l => simp [hd]

theorem splitSegs_append_dot_aux : ∀ (n : Nat) (c2 sfx : List Char), c2.length ≤ n →
    splitSegs (c2 ++ '.' :: sfx) = splitSegs c2 ++ splitSegs sfx ∨
      splitSegs (c2 ++ '.' :: sfx) = splitSegs c2 := by
  intro n
  induction n with
  | zero =>
    intro c2 sfx h
    have hc : c2 = [] := by
      cases c2 with
      | nil => rfl
      | cons a l => simp at h
    subst hc
    right
    rw [List.nil_append, splitSegs_eq ('.' :: sfx), next_dot]
    rfl
  | succ n ih =>
    intro c2 sfx hlen
    rw [splitSegs_eq (c2 ++ '.' :: sfx), next_append_dot, splitSegs_eq c2]
    cases hn : nextSubcategoryName c2 with
    | none => right; rfl
    | some pr =>
      obtain ⟨seg, rest⟩ := pr
      simp only []
      have hr := next_rest_length hn
      by_cases hd : ('.') ∈ c2
      · rw [if_pos hd]
        rcases ih rest sfx (by omega) with h | h
        · left
          rw [h, List.cons_append]
        · right
          rw [h]
      · rw [if_neg hd]
        have hrest : rest = [] := by
          obtain ⟨hseg, hrest, hne⟩ := next_some hn
          have hall : ∀ c, c ∈ c2 → (!(c == '.')) = true := by
            intro c hc
            simp only [Bool.not_eq_true', beq_eq_false_iff_ne]
            intro h
            exact hd (h ▸ hc)
          rw [hrest, dropWhile_all _ c2 hall]
          rfl
        left
        rw [hrest]
        rw [splitSegs_eq ([] : List Char), next_nil]
        rfl

theorem splitSegs_append_dot (c2 sfx : List Char) :
    splitSegs (c2 ++ '.' :: sfx) = splitSegs c2 ++ splitSegs sfx ∨
      splitSegs (c2 ++ '.' :: sfx) = splitSegs c2 :=
  splitSegs_append_dot_aux c2.length c2 sfx le_rfl

theorem splitSegs_dot (s : List Char) : splitSegs ('.' :: s) = [] := by
  rw [splitSegs_eq, next_dot]

theorem splitSegs_double_dot (c1 c2 : List Char) :
    splitSegs (c1 ++ '.' :: '.' :: c2) = splitSegs c1 := by
  rcases splitSegs_append_dot c1 ('.' :: c2) with h | h
  · rw [h, splitSegs_dot, List.append_nil]
  · exact h

/-! Resolution lemmas over segment paths. -/

theorem resolveSegs_cons (nodes : List Node) (seg : List Char)
    (rest : List (List Char)) (acc : Nat) :
    resolveSegs nodes (seg :: rest) acc =
      if (nodeIndex nodes seg).2 then
        resolveSegs (nodes.getD (nodeIndex nodes seg).1 nodeDflt).nodes rest
          (match (nodes.getD (nodeIndex nodes seg).1 nodeDflt).level with
            | some l => l
            | Option.none => acc)
      else acc := rfl

theorem levelAtPath_single (nodes : List Node) (seg : List Char) :
    levelAtPath nodes [seg] =
      if (nodeIndex nodes seg).2 then (nodes.getD (nodeIndex nodes seg).1 nodeDflt).level
      else Option.none := rfl

theorem levelAtPath_cons (nodes : List Node) (seg : List Char)
    (q : List (List Char)) (hq : q ≠ []) :
    levelAtPath nodes (seg :: q) =
      if (nodeIndex nodes seg).2 then
        levelAtPath (nodes.getD (nodeIndex nodes seg).1 nodeDflt).nodes q
      else Option.none := by
  cases q with
  | nil => exact absurd rfl hq
  | cons a l => rfl

theorem resolveSegs_no_levels : ∀ (extra : List (List Char)) (nodes : List Node) (acc : Nat),
    (∀ q, q ≠ [] → (∃ r, q ++ r = extra) → levelAtPath nodes q = Option.none) →
    resolveSegs nodes extra acc = acc := by
  intro extra
  induction extra with
  | nil => intro nodes acc h; rfl
  | cons seg rest ih =>
    intro nodes acc h
    rw [resolveSegs_cons]
    by_cases hf : (nodeIndex nodes seg).2
    · rw [if_pos hf]
      have h1 : levelAtPath nodes [seg] = Option.none := h [seg] (by simp) ⟨rest, rfl⟩
      rw [levelAtPath_single, if_pos hf] at h1
      rw [h1]
      apply ih
      rintro q hq ⟨r, hr⟩
      have h2 := h (seg :: q) (by simp) ⟨r, by rw [← hr]; rfl⟩
      rw [levelAtPath_cons nodes seg q hq, if_pos hf] at h2
      exact h2
    · rw [if_neg hf]

theorem resolveSegs_append : ∀ (segs2 extra : List (List Char)) (nodes : List Node) (acc : Nat),
    (∀ q, q ≠ [] → (∃ r, q ++ r = extra) → levelAtPath nodes (segs2 ++ q) = Option.none) →
    resolveSegs nodes (segs2 ++ extra) acc = resolveSegs nodes segs2 acc := by
  intro segs2
  induction segs2 with
  | nil =>
    intro extra nodes acc h
    rw [List.nil_append]
    exact resolveSegs_no_levels extra nodes acc fun q hq hr => by
      have h2 := h q hq hr
      rwa [List.nil_append] at h2
  | cons s ss ih =>
    intro extra nodes acc h
    rw [List.cons_append, resolveSegs_cons, resolveSegs_cons]
    by_cases hf : (nodeIndex nodes s).2
    · rw [if_pos hf, if_pos hf]
      apply ih
      intro q hq hr
      have h2 := h q hq hr
      rw [List.cons_append] at h2
      rw [levelAtPath_cons nodes s (ss ++ q)
        (fun hc => hq (List.append_eq_nil.mp hc).2), if_pos hf] at h2
      exact h2
    · rw [if_neg hf, if_neg hf]

/-- Claim C4, amended: for every filter tree and all category strings c1 and
c2 with c1 = c2 ++ "." ++ sfx, if no category strictly extending c2 along the
path up to and including c1 itself carries an explicit level in the tree,
then resolve(c1) = resolve(c2).  (The claim as frozen excludes c1 itself from
the override-free condition; claim_C4_counterexample shows that version
fails when c1 carries its own explicit level.) -/
theorem claim_C4 : ∀ (t : LogFilter) (c2 sfx : List Char),
    (∀ q, q ≠ [] → (∃ r, q ++ r = splitSegs sfx) →
      levelAtPath t.nodes (splitSegs c2 ++ q) = Option.none) →
    t.resolve (c2 ++ '.' :: sfx) = t.resolve c2 := by
  intro t c2 sfx h
  unfold LogFilter.resolve
  by_cases he : t.nodes.isEmpty
  · rw [if_pos he, if_pos he]
  · rw [if_neg he, if_neg he]
    rcases splitSegs_append_dot c2 sfx with hs | hs
    · rw [hs]
      exact resolveSegs_append (splitSegs c2) (splitSegs sfx) t.nodes t.level h
    · rw [hs]

/-- Claim C4 witness: in the concrete scenario tree, a.b.c.d resolves like
a.b.c — the path between them (just a.b.c.d itself) carries no explicit
level. -/
theorem claim_C4_witness :
    c3Tree.resolve ("a.b.c".toList ++ '.' :: "d".toList) = c3Tree.resolve "a.b.c".toList := by
  apply claim_C4
  rintro q hq ⟨r, hr⟩
  have hs : splitSegs "d".toList = ["d".toList] := by decide
  rw [hs] at hr
  cases q with
  | nil => exact absurd rfl hq
  | cons a q' =>
    rw [List.cons_append] at hr
    injection hr with h1 h2
    have hq' : q' = [] := (List.append_eq_nil.mp h2).1
    subst h1
    subst hq'
    decide

/-- Claim C4 counterexample: with filters a:ERROR and a.b:WARN, c2 = a and
c1 = a.b, no category lies strictly between c2 and c1, yet resolve(c1) =
WARN differs from resolve(c2) = ERROR because c1 itself carries an explicit
level. -/
theorem claim_C4_counterexample :
    c4Tree.resolve ("a".toList ++ '.' :: "b".toList) = LOG_LEVEL_WARN ∧
    c4Tree.resolve "a".toList = LOG_LEVEL_ERROR ∧
    ¬(c4Tree.resolve ("a".toList ++ '.' :: "b".toList) = c4Tree.resolve "a".toList) := by
  decide

/-- Claim C10, amended: resolution of an empty or leading-dot category
returns the default level unchanged; a category containing consecutive dots
resolves exactly as its truncation before the empty segment; during
construction the segments after the first empty segment are likewise ignored
(only the truncated node path is created), but the filter level is recorded
only when the whole category string is consumed, so a filter like a..b
creates its node a without recording ERROR on it.  (The claim's assertion
that construction behaves as if the category were truncated is refuted by
claim_C10_counterexample.) -/
theorem claim_C10 :
    (∀ t : LogFilter, t.resolve [] = t.level)
    ∧ (∀ (t : LogFilter) (s : List Char), t.resolve ('.' :: s) = t.level)
    ∧ (∀ (t : LogFilter) (c1 c2 : List Char),
        t.resolve (c1 ++ '.' :: '.' :: c2) = t.resolve c1)
    ∧ (c10Tree.nodes.map Node.name = ["a".toList]
        ∧ levelAtPath c10Tree.nodes ["a".toList] = Option.none
        ∧ c10Tree.resolve "a".toList = LOG_LEVEL_NONE) := by
  refine ⟨?_, ?_, ?_, ?_⟩
  · intro t
    unfold LogFilter.resolve
    by_cases he : t.nodes.isEmpty
    · rw [if_pos he]
    · rw [if_neg he]
      rfl
  · intro t s
    unfold LogFilter.resolve
    by_cases he : t.nodes.isEmpty
    · rw [if_pos he]
    · rw [if_neg he, splitSegs_dot]
      rfl
  · intro t c1 c2
    unfold LogFilter.resolve
    by_cases he : t.nodes.isEmpty
    · rw [if_pos he, if_pos he]
    · rw [if_neg he, if_neg he, splitSegs_double_dot]
  · exact ⟨by decide, by decide, by decide⟩

/-- Claim C10 counterexample: building from the filter a..b:ERROR is not the
same as building from its truncation a:ERROR — the former leaves a without
an explicit level, so a resolves to the default NONE rather than ERROR. -/
theorem claim_C10_counterexample :
    c10Tree.resolve "a".toList = LOG_LEVEL_NONE ∧
    c10TreeTrunc.resolve "a".toList = LOG_LEVEL_ERROR ∧
    ¬(c10Tree.resolve "a".toList = c10TreeTrunc.resolve "a".toList) := by
  decide

/-! Order properties of the node comparison. -/

theorem cmpSeg_eq_iff : ∀ (a b : List Char), cmpSeg a b = Ordering.eq ↔ a = b := by
  intro a
  induction a with
  | nil =>
    intro b
    cases b with
    | nil => simp [cmpSeg]
    | cons y ys => simp [cmpSeg]
  | cons x xs ih =>
    intro b
    cases b with
    | nil => simp [cmpSeg]
    | cons y ys =>
      simp only [cmpSeg]
      by_cases h1 : x < y
      · rw [if_pos h1]
        constructor
        · intro h; exact Ordering.noConfusion h
        · intro h
          injection h with hx hxs
          exact absurd (hx ▸ h1) (lt_irrefl y)
      · rw [if_neg h1]
        by_cases h2 : y < x
        · rw [if_pos h2]
          constructor
          · intro h; exact Ordering.noConfusion h
          · intro h
            injection h with hx hxs
            exact absurd (hx ▸ h2) (lt_irrefl y)
        · rw [if_neg h2]
          have hxy : x = y := le_antisymm (not_lt.mp h2) (not_lt.mp h1)
          rw [ih ys, hxy]
          simp

theorem cmpSeg_gt_iff : ∀ (a b : List Char), cmpSeg a b = Ordering.gt ↔ cmpSeg b a = Ordering.lt := by
  intro a
  induction a with
  | nil =>
    intro b
    cases b with
    | nil => simp [cmpSeg]
    | cons y ys => simp [cmpSeg]
  | cons x xs ih =>
    intro b
    cases b with
    | nil => simp [cmpSeg]
    | cons y ys =>
      simp only [cmpSeg]
      by_cases h1 : x < y
      · rw [if_pos h1, if_neg (lt_asymm h1), if_pos h1]
        decide
      · by_cases h2 : y < x
        · rw [if_neg h1, if_pos h2, if_pos h2]
          decide
        · rw [if_neg h1, if_neg h2, if_neg h2, if_neg h1]
          exact ih ys

theorem cmpSeg_lt_trans : ∀ (a b c : List Char), cmpSeg a b = Ordering.lt →
    cmpSeg b c = Ordering.lt → cmpSeg a c = Ordering.lt := by
  intro a
  induction a with
  | nil =>
    intro b c h1 h2
    cases c with
    | nil =>
      cases b with
      | nil => exact absurd h1 (by simp [cmpSeg])
      | cons y ys => exact absurd h2 (by simp [cmpSeg])
    | cons z zs => simp [cmpSeg]
  | cons x xs ih =>
    intro b c h1 h2
    cases b with
    | nil => exact absurd h1 (by simp [cmpSeg])
    | cons y ys =>
      cases c with
      | nil => exact absurd h2 (by simp [cmpSeg])
      | cons z zs =>
        simp only [cmpSeg] at h1 h2 ⊢
        by_cases hxy : x < y
        · by_cases hyz : y < z
          · rw [if_pos (lt_trans hxy hyz)]
          · by_cases hzy : z < y
            · rw [if_neg hyz, if_pos hzy] at h2
              exact Ordering.noConfusion h2
            · have hyz' : y = z := le_antisymm (not_lt.mp hzy) (not_lt.mp hyz)
              rw [if_pos (hyz' ▸ hxy)]
        · by_cases hyx : y < x
          · rw [if_neg hxy, if_pos hyx] at h1
            exact Ordering.noConfusion h1
          · have hxy' : x = y := le_antisymm (not_lt.mp hyx) (not_lt.mp hxy)
            rw [if_neg hxy, if_neg hyx] at h1
            by_cases hyz : y < z
            · rw [if_pos (hxy'.symm ▸ hyz)]
            · by_cases hzy : z < y
              · rw [if_neg hyz, if_pos hzy] at h2
                exact Ordering.noConfusion h2
              · have hyz' : y = z := le_antisymm (not_lt.mp hzy) (not_lt.mp hyz)
                rw [if_neg hyz, if_neg hzy] at h2
                have hxz : ¬ x < z := by rw [hxy', hyz']; exact lt_irrefl z
                have hzx : ¬ z < x := by rw [hxy', hyz']; exact lt_irrefl z
                rw [if_neg hxz, if_neg hzx]
                exact ih ys zs h1 h2

theorem getD_eq_get {α : Type} (l : List α) (j : Nat) (d : α) (h : j < l.length) :
    l.getD j d = l.get ⟨j, h⟩ := by
  simp [List.getD_eq_getElem?_getD, List.getElem?_eq_getElem h]

theorem getD_map {α β : Type} (f : α → β) : ∀ (l : List α) (j : Nat) (d : α),
    (l.map f).getD j (f d) = f (l.getD j d) := by
  intro l
  induction l with
  | nil => intro j d; cases j <;> rfl
  | cons a l ih =>
    intro j d
    cases j with
    | zero => rfl
    | succ j => simpa [List.getD_cons_succ] using ih j d

theorem set_getD_self {α : Type} : ∀ (l : List α) (k : Nat) (d : α), k < l.length →
    l.set k (l.getD k d) = l := by
  intro l
  induction l with
  | nil => intro k d hk; simp at hk
  | cons a l ih =>
    intro k d hk
    cases k with
    | zero => rfl
    | succ k =>
      rw [List.getD_cons_succ, List.set_cons_succ, ih k d (by simpa using hk)]

/-! Characterization of the lower_bound search nodeIndex on sorted arrays. -/

theorem nodeIndexAux_found_true (ns : List Node) (seg : List Char) :
    ∀ (fuel first len : Nat), (nodeIndexAux ns seg fuel first len true).2 = true := by
  intro fuel
  induction fuel with
  | zero => intro first len; rfl
  | succ fuel ih =>
    intro first len
    simp only [nodeIndexAux]
    by_cases h0 : len = 0
    · rw [if_pos h0]
    · rw [if_neg h0]
      cases hc : cmpSeg ((ns.getD (first + len / 2) nodeDflt)).name seg with
      | lt => exact ih (first + len / 2 + 1) (len - len / 2 - 1)
      | eq => exact ih first (len / 2)
      | gt => exact ih first (len / 2)

theorem nodeIndexAux_fst (ns : List Node) (seg : List Char) (cnt : Nat)
    (hiff : ∀ j, j < ns.length →
      (cmpSeg (ns.getD j nodeDflt).name seg = Ordering.lt ↔ j < cnt)) :
    ∀ (fuel len first : Nat) (f : Bool), len ≤ fuel → first + len ≤ ns.length →
      first ≤ cnt → cnt ≤ first + len →
      (nodeIndexAux ns seg fuel first len f).1 = cnt := by
  intro fuel
  induction fuel with
  | zero =>
    intro len first f hlf hb h1 h2
    have h0 : len = 0 := Nat.le_zero.mp hlf
    subst h0
    show first = cnt
    omega
  | succ fuel ih =>
    intro len first f hlf hb h1 h2
    simp only [nodeIndexAux]
    by_cases h0 : len = 0
    · rw [if_pos h0]
      show first = cnt
      omega
    · rw [if_neg h0]
      have hmidlt : first + len / 2 < ns.length := by omega
      cases hc : cmpSeg ((ns.getD (first + len / 2) nodeDflt)).name seg with
      | lt =>
        have hmlt : first + len / 2 < cnt := (hiff _ hmidlt).mp hc
        exact ih (len - len / 2 - 1) (first + len / 2 + 1) f (by omega) (by omega)
          (by omega) (by omega)
      | eq =>
        have hnlt : ¬ (first + len / 2 < cnt) := by
          intro hcon
          have hcl := (hiff _ hmidlt).mpr hcon
          rw [hc] at hcl
          exact Ordering.noConfusion hcl
        exact ih (len / 2) first true (by omega) (by omega) h1 (by omega)
      | gt =>
        have hnlt : ¬ (first + len / 2 < cnt) := by
          intro hcon
          have hcl := (hiff _ hmidlt).mpr hcon
          rw [hc] at hcl
          exact Ordering.noConfusion hcl
        exact ih (len / 2) first f (by omega) (by omega) h1 (by omega)

theorem nodeIndexAux_found_of_eq (ns : List Node) (seg : List Char) (cnt : Nat)
    (hiff : ∀ j, j < ns.length →
      (cmpSeg (ns.getD j nodeDflt).name seg = Ordering.lt ↔ j < cnt))
    (hceq : cmpSeg (ns.getD cnt nodeDflt).name seg = Ordering.eq) :
    ∀ (fuel len first : Nat) (f : Bool), len ≤ fuel → first + len ≤ ns.length →
      first ≤ cnt → cnt < first + len →
      (nodeIndexAux ns seg fuel first len f).2 = true := by
  intro fuel
  induction fuel with
  | zero =>
    intro len first f hlf hb h1 h2
    exact ((by omega : False)).elim
  | succ fuel ih =>
    intro len first f hlf hb h1 h2
    simp only [nodeIndexAux]
    by_cases h0 : len = 0
    · exact ((by omega : False)).elim
    · rw [if_neg h0]
      have hmidlt : first + len / 2 < ns.length := by omega
      cases hc : cmpSeg ((ns.getD (first + len / 2) nodeDflt)).name seg with
      | lt =>
        have hmlt : first + len / 2 < cnt := (hiff _ hmidlt).mp hc
        exact ih (len - len / 2 - 1) (first + len / 2 + 1) f (by omega) (by omega)
          (by omega) (by omega)
      | eq => exact nodeIndexAux_found_true ns seg fuel first (len / 2)
      | gt =>
        have hle : cnt ≤ first + len / 2 := by
          by_contra hcon
          have hcl := (hiff _ hmidlt).mpr (by omega)
          rw [hc] at hcl
          exact Ordering.noConfusion hcl
        have hne2 : ¬ (cnt = first + len / 2) := by
          intro hcon
          rw [← hcon, hceq] at hc
          exact Ordering.noConfusion hc
        exact ih (len / 2) first f (by omega) (by omega) h1 (by omega)

theorem nodeIndexAux_found_of_ne (ns : List Node) (seg : List Char)
    (hne : ∀ j, j < ns.length → cmpSeg (ns.getD j nodeDflt).name seg ≠ Ordering.eq) :
    ∀ (fuel len first : Nat) (f : Bool), first + len ≤ ns.length →
      (nodeIndexAux ns seg fuel first len f).2 = f := by
  intro fuel
  induction fuel with
  | zero => intro len first f hb; rfl
  | succ fuel ih =>
    intro len first f hb
    simp only [nodeIndexAux]
    by_cases h0 : len = 0
    · rw [if_pos h0]
    · rw [if_neg h0]
      have hmidlt : first + len / 2 < ns.length := by omega
      cases hc : cmpSeg ((ns.getD (first + len / 2) nodeDflt)).name seg with
      | lt => exact ih (len - len / 2 - 1) (first + len / 2 + 1) f (by omega)
      | eq => exact absurd hc (hne _ hmidlt)
      | gt => exact ih (len / 2) first f (by omega)

theorem sorted_lt_iff (seg : List Char) : ∀ (ns : List Node), SortedNodes ns →
    ∀ j, j < ns.length →
      (cmpSeg (ns.getD j nodeDflt).name seg = Ordering.lt ↔
        j < ns.countP (fun n => cmpSeg n.name seg == Ordering.lt)) := by
  intro ns
  induction ns with
  | nil => intro _ j hj; simp at hj
  | cons n ns ih =>
    intro hs j hj
    have hs' : SortedNodes ns := (List.pairwise_cons.mp hs).2
    have hn : ∀ m ∈ ns, cmpSeg n.name m.name = Ordering.lt := (List.pairwise_cons.mp hs).1
    rw [List.countP_cons]
    by_cases hlt : cmpSeg n.name seg = Ordering.lt
    · rw [show (cmpSeg n.name seg == Ordering.lt) = true by rw [hlt]; rfl]
      simp only [if_true]
      cases j with
      | zero =>
        rw [List.getD_cons_zero]
        constructor
        · intro _; omega
        · intro _; exact hlt
      | succ j =>
        have hj' : j < ns.length := by simpa using hj
        rw [List.getD_cons_succ, ih hs' j hj']
        omega
    · rw [show (cmpSeg n.name seg == Ordering.lt) = false by
        cases hco : cmpSeg n.name seg with
        | lt => exact absurd hco hlt
        | eq => rfl
        | gt => rfl]
      simp only [Bool.false_eq_true, if_false, Nat.add_zero]
      have hcnt0 : ns.countP (fun m => cmpSeg m.name seg == Ordering.lt) = 0 := by
        rw [List.countP_eq_zero]
        intro m hm hb
        cases hco : cmpSeg m.name seg with
        | lt => exact hlt (cmpSeg_lt_trans _ _ _ (hn m hm) hco)
        | eq => rw [hco] at hb; exact Bool.noConfusion hb
        | gt => rw [hco] at hb; exact Bool.noConfusion hb
      rw [hcnt0]
      cases j with
      | zero =>
        rw [List.getD_cons_zero]
        constructor
        · intro hcon; exact absurd hcon hlt
        · intro hcon; exact ((by omega : False)).elim
      | succ j =>
        have hj' : j < ns.length := by simpa using hj
        rw [List.getD_cons_succ]
        constructor
        · intro hml
          exact absurd hml fun hml' =>
            hlt (cmpSeg_lt_trans _ _ _ (hn _ (getD_mem ns j nodeDflt hj')) hml')
        · intro hcon; exact ((by omega : False)).elim

theorem nodeIndex_fst_sorted (ns : List Node) (seg : List Char) (hs : SortedNodes ns) :
    (nodeIndex ns seg).1 = ns.countP (fun n => cmpSeg n.name seg == Ordering.lt) := by
  have hcle : ns.countP (fun n => cmpSeg n.name seg == Ordering.lt) ≤ ns.length :=
    List.countP_le_length _
  exact nodeIndexAux_fst ns seg _ (sorted_lt_iff seg ns hs) ns.length ns.length 0 false
    le_rfl (by omega) (Nat.zero_le _) (by omega)

theorem sorted_eq_index (ns : List Node) (seg : List Char) (hs : SortedNodes ns)
    (n : Node) (hmem : n ∈ ns) (hname : n.name = seg) :
    ns.countP (fun m => cmpSeg m.name seg == Ordering.lt) < ns.length ∧
      ns.getD (ns.countP (fun m => cmpSeg m.name seg == Ordering.lt)) nodeDflt = n := by
  obtain ⟨⟨j, hj⟩, hget⟩ := List.mem_iff_get.mp hmem
  have hiff := sorted_lt_iff seg ns hs
  have hgd : ns.getD j nodeDflt = n := by rw [getD_eq_get ns j nodeDflt hj]; exact hget
  have hPj : cmpSeg (ns.getD j nodeDflt).name seg = Ordering.eq := by
    rw [hgd, hname]
    exact (cmpSeg_eq_iff seg seg).mpr rfl
  have hjcnt : j = ns.countP (fun m => cmpSeg m.name seg == Ordering.lt) := by
    have h1 : ¬ (j < ns.countP (fun m => cmpSeg m.name seg == Ordering.lt)) := by
      intro hcon
      have hcl := (hiff j hj).mpr hcon
      rw [hPj] at hcl
      exact Ordering.noConfusion hcl
    have h2 : ¬ (ns.countP (fun m => cmpSeg m.name seg == Ordering.lt) < j) := by
      intro hcon
      have hcl : ns.countP (fun m => cmpSeg m.name seg == Ordering.lt) < ns.length :=
        lt_trans hcon hj
      have hR := (List.pairwise_iff_get.mp hs) ⟨_, hcl⟩ ⟨j, hj⟩ hcon
      have hR2 : cmpSeg
          (ns.getD (ns.countP (fun m => cmpSeg m.name seg == Ordering.lt)) nodeDflt).name
          seg = Ordering.lt := by
        rw [getD_eq_get ns _ nodeDflt hcl]
        rw [hget, hname] at hR
        exact hR
      have := (hiff _ hcl).mp hR2
      omega
    omega
  rw [← hjcnt]
  exact ⟨hj, hgd⟩

theorem nodeIndex_found_iff (ns : List Node) (seg : List Char) (hs : SortedNodes ns) :
    (nodeIndex ns seg).2 = true ↔ ∃ n, n ∈ ns ∧ n.name = seg := by
  constructor
  · intro hf
    by_contra hne
    push_neg at hne
    have hff : (nodeIndex ns seg).2 = false := by
      apply nodeIndexAux_found_of_ne ns seg
      · intro j hj hce
        exact hne _ (getD_mem ns j nodeDflt hj) ((cmpSeg_eq_iff _ _).mp hce)
      · omega
    rw [hf] at hff
    exact Bool.noConfusion hff
  · rintro ⟨n, hmem, hname⟩
    obtain ⟨hcl, hgd⟩ := sorted_eq_index ns seg hs n hmem hname
    have hPc : cmpSeg
        (ns.getD (ns.countP (fun m => cmpSeg m.name seg == Ordering.lt)) nodeDflt).name
        seg = Ordering.eq := by
      rw [hgd, hname]
      exact (cmpSeg_eq_iff seg seg).mpr rfl
    exact nodeIndexAux_found_of_eq ns seg _ (sorted_lt_iff seg ns hs) hPc
      ns.length ns.length 0 false le_rfl (by omega) (Nat.zero_le _) (by omega)

theorem nodeIndex_found_props (ns : List Node) (seg : List Char) (hs : SortedNodes ns)
    (hf : (nodeIndex ns seg).2 = true) :
    (nodeIndex ns seg).1 < ns.length ∧
      (ns.getD (nodeIndex ns seg).1 nodeDflt).name = seg := by
  obtain ⟨n, hmem, hname⟩ := (nodeIndex_found_iff ns seg hs).mp hf
  obtain ⟨hcl, hgd⟩ := sorted_eq_index ns seg hs n hmem hname
  rw [nodeIndex_fst_sorted ns seg hs]
  exact ⟨hcl, by rw [hgd, hname]⟩

theorem nodeIndex_not_found (ns : List Node) (seg : List Char) (hs : SortedNodes ns)
    (hf : ¬ ((nodeIndex ns seg).2 = true)) : ∀ n, n ∈ ns → n.name ≠ seg := by
  intro n hmem hname
  exact hf ((nodeIndex_found_iff ns seg hs).mpr ⟨n, hmem, hname⟩)

/-! Ordered insertion preserves the sorting invariant. -/

theorem insertAt_mem : ∀ (k : Nat) (x : Node) (l : List Node) (m : Node),
    m ∈ insertAt k x l → m = x ∨ m ∈ l := by
  intro k
  induction k with
  | zero =>
    intro x l m hm
    rcases List.mem_cons.mp hm with h | h
    exacts [Or.inl h, Or.inr h]
  | succ k ih =>
    intro x l m hm
    cases l with
    | nil =>
      simp only [insertAt, List.mem_singleton] at hm
      exact Or.inl hm
    | cons a l =>
      rcases List.mem_cons.mp hm with h | h
      · exact Or.inr (by simp [h])
      · rcases ih x l m h with h' | h'
        exacts [Or.inl h', Or.inr (by simp [h'])]

theorem insertAt_getD : ∀ (k : Nat) (x : Node) (l : List Node), k ≤ l.length →
    (insertAt k x l).getD k nodeDflt = x := by
  intro k
  induction k with
  | zero => intro x l _; rfl
  | succ k ih =>
    intro x l hk
    cases l with
    | nil => simp at hk
    | cons a l =>
      rw [show insertAt (k + 1) x (a :: l) = a :: insertAt k x l from rfl,
        List.getD_cons_succ]
      exact ih x l (by simpa using hk)

theorem insertAt_set : ∀ (k : Nat) (x y : Node) (l : List Node), k ≤ l.length →
    (insertAt k x l).set k y = insertAt k y l := by
  intro k
  induction k with
  | zero => intro x y l _; rfl
  | succ k ih =>
    intro x y l hk
    cases l with
    | nil => simp at hk
    | cons a l =>
      rw [show insertAt (k + 1) x (a :: l) = a :: insertAt k x l from rfl]
      show a :: (insertAt k x l).set k y = a :: insertAt k y l
      rw [ih x y l (by simpa using hk)]

theorem pairwise_insertAt (seg : List Char) (x : Node) (hx : x.name = seg) :
    ∀ (ns : List Node), SortedNodes ns → (∀ n, n ∈ ns → n.name ≠ seg) →
      SortedNodes (insertAt (ns.countP fun m => cmpSeg m.name seg == Ordering.lt) x ns) := by
  intro ns
  induction ns with
  | nil =>
    intro _ _
    exact List.Pairwise.cons (fun m hm => absurd hm (List.not_mem_nil m)) List.Pairwise.nil
  | cons n ns ih =>
    intro hs hne
    obtain ⟨hn, hs'⟩ := List.pairwise_cons.mp hs
    rw [List.countP_cons]
    by_cases hlt : cmpSeg n.name seg = Ordering.lt
    · rw [show (cmpSeg n.name seg == Ordering.lt) = true by rw [hlt]; rfl]
      simp only [if_true]
      rw [show insertAt ((ns.countP fun m => cmpSeg m.name seg == Ordering.lt) + 1) x
        (n :: ns) = n :: insertAt (ns.countP fun m => cmpSeg m.name seg == Ordering.lt)
        x ns from rfl]
      apply List.pairwise_cons.mpr
      constructor
      · intro m hm
        rcases insertAt_mem _ x ns m hm with rfl | hm'
        · rw [hx]; exact hlt
        · exact hn m hm'
      · exact ih hs' fun m hm => hne m (by simp [hm])
    · have hgt : cmpSeg n.name seg = Ordering.gt := by
        cases hco : cmpSeg n.name seg with
        | lt => exact absurd hco hlt
        | eq => exact absurd ((cmpSeg_eq_iff _ _).mp hco) (hne n (by simp))
        | gt => rfl
      rw [show (cmpSeg n.name seg == Ordering.lt) = false by
        cases hco : cmpSeg n.name seg with
        | lt => exact absurd hco hlt
        | eq => rfl
        | gt => rfl]
      simp only [Bool.false_eq_true, if_false, Nat.add_zero]
      have hcnt0 : ns.countP (fun m => cmpSeg m.name seg == Ordering.lt) = 0 := by
        rw [List.countP_eq_zero]
        intro m hm hb
        cases hco : cmpSeg m.name seg with
        | lt => exact hlt (cmpSeg_lt_trans _ _ _ (hn m hm) hco)
        | eq => rw [hco] at hb; exact Bool.noConfusion hb
        | gt => rw [hco] at hb; exact Bool.noConfusion hb
      rw [hcnt0]
      rw [show insertAt 0 x (n :: ns) = x :: n :: ns from rfl]
      apply List.pairwise_cons.mpr
      constructor
      · intro m hm
        rcases List.mem_cons.mp hm with rfl | hm'
        · rw [hx]
          exact (cmpSeg_gt_iff _ _).mp hgt
        · have hmlt : ¬ cmpSeg m.name seg = Ordering.lt := fun hml =>
            hlt (cmpSeg_lt_trans _ _ _ (hn m hm') hml)
          have hmeq : ¬ cmpSeg m.name seg = Ordering.eq := fun hme =>
            hne m (by simp [hm']) ((cmpSeg_eq_iff _ _).mp hme)
          have hmgt : cmpSeg m.name seg = Ordering.gt := by
            cases hco : cmpSeg m.name seg with
            | lt => exact absurd hco hmlt
            | eq => exact absurd hco hmeq
            | gt => rfl
          rw [hx]
          exact (cmpSeg_gt_iff _ _).mp hmgt
      · exact hs

theorem sorted_set_same_name (ns : List Node) (k : Nat) (y : Node) (hk : k < ns.length)
    (hname : y.name = (ns.getD k nodeDflt).name) (hs : SortedNodes ns) :
    SortedNodes (ns.set k y) := by
  have h1 : (ns.set k y).map Node.name = ns.map Node.name := by
    rw [List.map_set, hname, ← getD_map Node.name ns k nodeDflt]
    exact set_getD_self _ k _ (by simpa using hk)
  have hs2 : List.Pairwise (fun a b => cmpSeg a b = Ordering.lt) (ns.map Node.name) :=
    (List.pairwise_map).mpr hs
  rw [← h1] at hs2
  exact (List.pairwise_map).mp hs2

/-! The whole-forest invariant and its preservation by construction. -/

theorem forestOrd_nil : ForestOrd [] :=
  ForestOrd.mk [] List.Pairwise.nil (fun n hn => absurd hn (List.not_mem_nil n))

theorem forestOrd_sorted {ns : List Node} (h : ForestOrd ns) : SortedNodes ns := by
  cases h
  assumption

theorem forestOrd_mem {ns : List Node} (h : ForestOrd ns) :
    ∀ n, n ∈ ns → ForestOrd n.nodes := by
  cases h
  assumption

theorem updateNode_name (flvl : Nat) (isLast : Bool) (node : Node) :
    (updateNode flvl isLast node).name = node.name := by
  cases isLast <;> rfl

theorem updateNode_nodes (flvl : Nat) (isLast : Bool) (node : Node) :
    (updateNode flvl isLast node).nodes = node.nodes := by
  cases isLast <;> rfl

theorem addCatSegs_ord (flvl : Nat) : ∀ (segs : List (List Char × Bool)) (nodes : List Node)
    (oks : List Bool) (out : List Node × List Bool),
    ForestOrd nodes → addCatSegs flvl nodes segs oks = some out → ForestOrd out.1 := by
  intro segs
  induction segs with
  | nil =>
    intro nodes oks out ho heq
    simp only [addCatSegs, Option.some.injEq] at heq
    rw [← heq]
    exact ho
  | cons sb rest ih =>
    obtain ⟨seg, isLast⟩ := sb
    intro nodes oks out ho heq
    have hs := forestOrd_sorted ho
    simp only [addCatSegs] at heq
    split at heq
    · exact Option.noConfusion heq
    · rename_i nodes1 oks1 hstep
      split at heq
      · exact Option.noConfusion heq
      · rename_i children oks2 hrec
        simp only [Option.some.injEq] at heq
        rw [← heq]
        dsimp only
        split at hstep
        · rename_i hf
          simp only [Option.some.injEq, Prod.mk.injEq] at hstep
          obtain ⟨rfl, rfl⟩ := hstep
          have hprops := nodeIndex_found_props nodes seg hs hf
          have hch : ForestOrd children := by
            refine ih _ _ (children, oks2) ?_ hrec
            rw [updateNode_nodes]
            exact forestOrd_mem ho _ (getD_mem nodes _ nodeDflt hprops.1)
          refine ForestOrd.mk _ ?_ ?_
          · apply sorted_set_same_name nodes _ _ hprops.1 _ hs
            show (updateNode flvl isLast
                (nodes.getD (nodeIndex nodes seg).1 nodeDflt)).name =
              (nodes.getD (nodeIndex nodes seg).1 nodeDflt).name
            exact updateNode_name _ _ _
          · intro m hm
            rcases List.mem_or_eq_of_mem_set hm with hm' | rfl
            · exact forestOrd_mem ho m hm'
            · exact hch
        · rename_i hnf
          have hnodes1 : nodes1 =
              insertAt (nodeIndex nodes seg).1 (Node.mk seg Option.none []) nodes := by
            split at hstep
            · simp only [Option.some.injEq, Prod.mk.injEq] at hstep
              exact hstep.1.symm
            · split at hstep
              · simp only [Option.some.injEq, Prod.mk.injEq] at hstep
                exact hstep.1.symm
              · exact Option.noConfusion hstep
          subst hnodes1
          have hnf2 := nodeIndex_not_found nodes seg hs hnf
          have hidx : (nodeIndex nodes seg).1 =
              nodes.countP (fun m => cmpSeg m.name seg == Ordering.lt) :=
            nodeIndex_fst_sorted nodes seg hs
          have hcle : nodes.countP (fun m => cmpSeg m.name seg == Ordering.lt) ≤
              nodes.length := List.countP_le_length _
          have hgd : (insertAt (nodeIndex nodes seg).1 (Node.mk seg Option.none [])
              nodes).getD (nodeIndex nodes seg).1 nodeDflt = Node.mk seg Option.none [] := by
            rw [hidx]
            exact insertAt_getD _ _ nodes (by omega)
          have hch : ForestOrd children := by
            refine ih _ _ (children, oks2) ?_ hrec
            rw [hgd, updateNode_nodes]
            exact forestOrd_nil
          rw [hgd]
          have hnm : (updateNode flvl isLast (Node.mk seg Option.none [])).name = seg := by
            rw [updateNode_name]
            rfl
          rw [hidx, insertAt_set _ _ _ nodes (by omega)]
          refine ForestOrd.mk _ ?_ ?_
          · apply pairwise_insertAt seg _ _ nodes hs hnf2
            exact hnm
          · intro m hm
            rcases insertAt_mem _ _ nodes m hm with rfl | hm'
            · exact hch
            · exact forestOrd_mem ho m hm'

theorem buildNodes_ord : ∀ (filters : List (List Char × Nat)) (nodes : List Node)
    (oks : List Bool) (out : List Node),
    ForestOrd nodes → buildNodes filters nodes oks = some out → ForestOrd out := by
  intro filters
  induction filters with
  | nil =>
    intro nodes oks out ho heq
    simp only [buildNodes, Option.some.injEq] at heq
    rw [← heq]
    exact ho
  | cons f filters ih =>
    obtain ⟨cat, flvl⟩ := f
    intro nodes oks out ho heq
    simp only [buildNodes] at heq
    split at heq
    · exact Option.noConfusion heq
    · rename_i nodes1 oks1 hadd
      exact ih nodes1 oks1 out
        (addCatSegs_ord flvl (annSegs cat) nodes oks (nodes1, oks1) ho hadd) heq

/-- Claim C7: every sibling array of a tree built from any filter list is
strictly sorted under the node ordering (sorted and duplicate-free), and on a
sorted sibling array the nodeIndex binary search reports found exactly when a
sibling with that exact text exists. -/
theorem claim_C7 :
    (∀ (lvl : Nat) (filters : List (List Char × Nat)) (rOk : Bool) (oks : List Bool),
      ForestOrd (LogFilter.build lvl filters rOk oks).nodes)
    ∧ (∀ (ns : List Node) (seg : List Char), SortedNodes ns →
      ((nodeIndex ns seg).2 = true ↔ ∃ n, n ∈ ns ∧ n.name = seg)) := by
  constructor
  · intro lvl filters rOk oks
    unfold LogFilter.build
    by_cases hr : rOk
    · rw [if_pos hr]
      cases hb : buildNodes filters [] oks with
      | none => exact forestOrd_nil
      | some ns => exact buildNodes_ord filters [] oks ns forestOrd_nil hb
    · rw [if_neg hr]
      exact forestOrd_nil
  · exact fun ns seg hs => nodeIndex_found_iff ns seg hs

/-- Claim C7 witness: the invariant instantiated on the concrete scenario
tree, and the search equivalence on a concrete two-node sorted array whose
sortedness is checked by evaluation. -/
theorem claim_C7_witness :
    ForestOrd c3Tree.nodes ∧
      ((nodeIndex c7Nodes ("b".toList)).2 = true ↔
        ∃ n, n ∈ c7Nodes ∧ n.name = "b".toList) := by
  constructor
  · exact claim_C7.1 LOG_LEVEL_NONE c3Filters true []
  · exact claim_C7.2 c7Nodes ("b".toList) (by decide)

end Firmware
